import Mathlib

/-!
Shallow embedding of the dependency-graph diff engine of `src/graph.rs`
(the `subup` repository), together with proofs of specification claims
about it.

The Rust code compares two `cargo metadata` snapshots and reports, for
every workspace root, the trails to the first points of divergence, plus
the set of affected workspace-member paths.
-/

namespace Subup

/-- Outcome type for the embedded Rust code: `none` models a run that does
not terminate (the recursion in `diff` has no termination guard, so the
embedding is fueled and `none` is fuel exhaustion), `some (Except.error
msg)` models a Rust panic carrying message `msg`, and `some (Except.ok a)`
models normal completion returning `a`. -/
abbrev M (α : Type) : Type :=
  Option (Except String α)

def M.pure {α : Type} (a : α) : M α :=
  some (Except.ok a)

def M.throw {α : Type} (msg : String) : M α :=
  some (Except.error msg)

def M.bind {α β : Type} : M α → (α → M β) → M β
  | none, _ => none
  | some (Except.error e), _ => some (Except.error e)
  | some (Except.ok a), f => f a

/-- Sequential effectful map over a list: models a Rust `for` loop whose
body can panic or diverge, collecting the per-element results in order. -/
def mmap {α β : Type} (f : α → M β) : List α → M (List β)
  | [] => M.pure []
  | x :: xs =>
    M.bind (f x) fun y => M.bind (mmap f xs) fun ys => M.pure (y :: ys)

/-- One entry of `Metadata.packages` (`cargo_metadata::Package`), with the
three fields the Rust code reads: `name`, `version` and the full package
`id` string of the form `"NAME VERSION (SOURCE)"`. -/
structure Package where
  name : String
  version : String
  id : String
deriving DecidableEq

/-- One entry of `Metadata.workspace_members`, with the fields the Rust
code reads: `name`, `version` (already rendered to a string) and the
source `url`. -/
structure WorkspaceMember where
  name : String
  version : String
  url : String
deriving DecidableEq

/-- One resolve node (`cargo_metadata::Node`): a full package `id` and the
list of full ids of its dependencies. -/
structure Node where
  id : String
  dependencies : List String
deriving DecidableEq

/-- The slice of `cargo_metadata::Metadata` that `diff_resolve` reads:
the package list, the workspace member list, and the (optional) resolve
node list. -/
structure Metadata where
  packages : List Package
  workspace_members : List WorkspaceMember
  resolve : Option (List Node)
deriving DecidableEq

/-- Split a character list at every occurrence of the separator, keeping
empty segments, as Rust `str::split(sep)` does (kernel-computable stand-in
for `String.splitOn`, which does not reduce). -/
def splitChars (sep : Char) : List Char → List (List Char)
  | [] => [[]]
  | c :: cs =>
    if c = sep then
      [] :: splitChars sep cs
    else
      match splitChars sep cs with
      | [] => [[c]]
      | seg :: rest => (c :: seg) :: rest

/-- First space-separated word of a string: models
`s.split(' ').next().unwrap()` (always succeeds since splitting yields at
least one segment). -/
def first_word (s : String) : String :=
  ⟨(splitChars ' ' s.data).headI⟩

/-- Boolean prefix test on character lists, modelling
`str::starts_with`. -/
def starts_with_chars : List Char → List Char → Bool
  | _, [] => true
  | [], _ :: _ => false
  | c :: cs, p :: ps => c == p && starts_with_chars cs ps

/-- The `member.url[11..]` slice: drop the `"path+file:/"` scheme prefix
(11 characters; the preceding assert guarantees the prefix is this ASCII
string, so byte and character counts agree). -/
def strip_scheme (url : String) : String :=
  ⟨url.data.drop 11⟩

/-- Embedding of `graph.rs::strip_source`: `id.splitn(3, ' ')`, keeping
`parts[0]` and `parts[1]`, joined by a space. `splitn(3, ' ')` and
`split(' ')` agree on the first two segments. When the id has no space,
`parts[1]` is out of bounds and Rust panics; this is modelled by
`none`. -/
def strip_source (id : String) : Option String :=
  match splitChars ' ' id.data with
  | p0 :: p1 :: _ => some ⟨p0 ++ ' ' :: p1⟩
  | _ => none

/-- Lookup in a resolve map. The Rust code builds a `HashMap` keyed by
node id from the node list; the embedding looks the id up in the list
directly. -/
def findNode (nodes : List Node) (id : String) : Option Node :=
  nodes.find? (fun n => n.id == id)

/-- Panicking form of `strip_source` as it occurs inside the loops of
`diff` (`trail.push(strip_source(dep))`). -/
def strip_sourceM (dep : String) : M String :=
  match strip_source dep with
  | none => M.throw "index out of bounds in strip_source"
  | some k => M.pure k

/-- The dependencies processed by the two emitting loops of `diff`
(`graph.rs` lines 134-149): those of `node1` absent from `node2`'s
dependency list, followed by those of `node2` absent from `node1`'s. -/
def asym_deps (node1 node2 : Node) : List String :=
  node1.dependencies.filter (fun d => !(node2.dependencies.contains d)) ++
    node2.dependencies.filter (fun d => !(node1.dependencies.contains d))

/-- Embedding of the recursive `graph.rs::diff`. `trail` is the trail
accumulated so far (the Rust code pushes and pops in place; the embedding
passes it functionally and returns the list of emitted trails). The extra
`Nat` argument is fuel: the Rust recursion has no termination guard, and
running out of fuel yields `none`. -/
def diff (modified_members : List String) (first_resolve second_resolve : List Node) :
    Nat → String → List String → M (List (List String))
  | 0, _, _ => none
  | fuel + 1, id, trail =>
    match strip_source id with
    | none => M.throw "index out of bounds in strip_source"
    | some key =>
      match findNode second_resolve id with
      | none => M.pure [trail ++ [key]]
      | some node2 =>
        if modified_members.contains key then
          M.pure [trail ++ [key]]
        else
          match findNode first_resolve id with
          | none => M.throw ("no entry found for key " ++ id)
          | some node1 =>
            M.bind (mmap strip_sourceM (asym_deps node1 node2))
              fun strips =>
                if strips.isEmpty then
                  M.bind
                    (mmap
                      (fun dep =>
                        diff modified_members first_resolve second_resolve fuel dep
                          (trail ++ [key]))
                      node1.dependencies)
                    fun results => M.pure results.flatten
                else
                  M.pure (strips.map (fun s => (trail ++ [key]) ++ [s]))

/-- Embedding of the inner member-scan of the path-resolution loop in
`diff_resolve` (`graph.rs` lines 93-105): scan the workspace members for
the first one whose `name` equals `name`; assert its url begins with the
local-path scheme and strip the first 11 characters; panic when no member
matches. -/
def find_root_path : List WorkspaceMember → String → M String
  | [], name => M.throw ("Did not find root `" ++ name ++ "` in workspace.")
  | member :: rest, name =>
    if member.name == name then
      if starts_with_chars member.url.data ("path+file:/".data) then
        M.pure (strip_scheme member.url)
      else
        M.throw "assertion failed: member.url.starts_with of path+file:/"
    else
      find_root_path rest name

/-- Insertion into the accumulated `changed_paths`; the Rust code uses a
`HashSet`, modelled as a duplicate-free list. -/
def insert_path (paths : List String) (p : String) : List String :=
  if paths.contains p then paths else paths ++ [p]

/-- Embedding of the path-resolution loop of `diff_resolve` (`graph.rs`
lines 89-106): for each trail take `trail[0]`, split off the name before
the first space, and resolve it to a workspace member path. -/
def resolve_paths (members : List WorkspaceMember) :
    List (List String) → List String → M (List String)
  | [], acc => M.pure acc
  | trail :: rest, acc =>
    match trail with
    | [] => M.throw "index out of bounds: trail is empty"
    | t0 :: _ =>
      M.bind (find_root_path members (first_word t0)) fun p =>
        resolve_paths members rest (insert_path acc p)

/-- The `roots` set of `diff_resolve` (`graph.rs` lines 26-30): the
`(name, version)` pairs of the declared workspace members. -/
def roots_of (first : Metadata) : List (String × String) :=
  first.workspace_members.map (fun wm => (wm.name, wm.version))

/-- The `root_ids` set of `diff_resolve` (`graph.rs` lines 32-42): ids of
the packages whose `(name, version)` matches a declared workspace member.
Workspace members with no matching package are silently dropped (the Rust
code carries a `TODO: Verify all roots were found.`). The Rust `HashSet`
is modelled as a deduplicated list. -/
def root_ids (first : Metadata) : List String :=
  ((first.packages.filter
      (fun p => (roots_of first).contains (p.name, p.version))).map
    (fun p => p.id)).dedup

/-- One step of the modified-member id construction (`graph.rs` lines
45-55): find the workspace member with the given name and render
`"NAME VERSION"`; panic when no member has that name. -/
def member_lookup (first : Metadata) (name : String) : M String :=
  match first.workspace_members.find? (fun m => m.name == name) with
  | some member => M.pure (member.name ++ " " ++ member.version)
  | none => M.throw ("Could not find `" ++ name ++ "` in workspace members.")

/-- The `.resolve.as_ref().unwrap()` step of `diff_resolve`. -/
def unwrap_resolve (m : Metadata) : M (List Node) :=
  match m.resolve with
  | some r => M.pure r
  | none => M.throw "called unwrap on a None value"

/-- Embedding of `graph.rs::diff_resolve`. The `fuel` argument bounds the
recursion depth of `diff` (see `diff`). Iteration order of Rust hash sets
is unspecified; the embedding fixes the underlying list order. -/
def diff_resolve (first second : Metadata) (modified_members : List String)
    (fuel : Nat) : M (List (List String) × List String) :=
  M.bind (mmap (member_lookup first) modified_members)
    fun modified_member_ids =>
  M.bind (unwrap_resolve first)
    fun first_resolve =>
  M.bind (unwrap_resolve second)
    fun second_resolve =>
  M.bind
    (mmap
      (fun id => diff modified_member_ids first_resolve second_resolve fuel id [])
      (root_ids first))
    fun results =>
  M.bind (resolve_paths first.workspace_members results.flatten [])
    fun changed_paths =>
  M.pure (results.flatten, changed_paths)

/-- Name extraction applied to a trail's first element in the
path-resolution loop: `trail[0].split(' ').next().unwrap()`, or `none`
when the trail is empty. -/
def firstNameOf : List String → Option String
  | [] => none
  | t0 :: _ => some (first_word t0)

/-- Chain property of the part of a trail below its root, anchored at full
ids of the old resolve `R`: each element is reached from the previous
node via a dependency edge of `R`, except that the final element (the
divergence point) may instead stand on its own (it can be the stripped id
of an edge that exists only in the new snapshot). -/
inductive trailChain (R : List Node) : String → List String → Prop
  | nil (id : String) : trailChain R id []
  | diverge (id y : String) : trailChain R id [y]
  | step (id : String) (n : Node) (d y : String) (ys : List String) :
      findNode R id = some n → d ∈ n.dependencies → strip_source d = some y →
      trailChain R d ys → trailChain R id (y :: ys)

/-! Concrete snapshots used by the closed theorems and witnesses below. -/

def exA : Package := ⟨"a", "1.0.0", "a 1.0.0 (path+file:///w/a)"⟩
def exMemA : WorkspaceMember := ⟨"a", "1.0.0", "path+file:///w/a"⟩
def aId : String := "a 1.0.0 (path+file:///w/a)"
def bId : String := "b 1.0.0 (registry)"
def c1Id : String := "c 1.0.0 (registry)"
def c2Id : String := "c 2.0.0 (registry)"
def xId : String := "x 1.0.0 (registry)"

/-- Old snapshot with chain a -> b -> c at version 1.0.0. -/
def exC6_old : Metadata :=
  ⟨[exA], [exMemA], some [⟨aId, [bId]⟩, ⟨bId, [c1Id]⟩, ⟨c1Id, []⟩]⟩

/-- New snapshot with chain a -> b -> c at version 2.0.0. -/
def exC6_new : Metadata :=
  ⟨[exA], [exMemA], some [⟨aId, [bId]⟩, ⟨bId, [c2Id]⟩, ⟨c2Id, []⟩]⟩

/-- Old snapshot where root a depends on x. -/
def exC2_old : Metadata :=
  ⟨[exA], [exMemA], some [⟨aId, [xId]⟩, ⟨xId, []⟩]⟩

/-- New snapshot with no node for x at all (the edge a -> x remains). -/
def exC2_new : Metadata :=
  ⟨[exA], [exMemA], some [⟨aId, [xId]⟩]⟩

/-- Workspace member `ghost` that has no corresponding package/node. -/
def exGhostMem : WorkspaceMember := ⟨"ghost", "1.0.0", "path+file:///w/g"⟩

/-- Old snapshot declaring the roots `a` and `ghost`, where `ghost` has no
corresponding node. -/
def exC3_old : Metadata :=
  ⟨[exA], [exMemA, exGhostMem], some [⟨aId, [xId]⟩, ⟨xId, []⟩]⟩

/-- New snapshot diverging from `exC3_old` at root a. -/
def exC3_new : Metadata :=
  ⟨[exA], [exMemA], some [⟨aId, []⟩]⟩

/-! Basic facts about the outcome type `M` and the loop combinator
`mmap`. -/

theorem M.pure_inj {α : Type} {a b : α} (h : M.pure a = M.pure b) : a = b := by
  simpa [M.pure] using h

theorem M.pure_ne_none {α : Type} (a : α) : M.pure a ≠ none := by
  simp [M.pure]

theorem M.throw_ne_pure {α : Type} {msg : String} {a : α} :
    M.throw msg ≠ M.pure a := by
  simp [M.throw, M.pure]

theorem M.bind_pure_left {α β : Type} (a : α) (f : α → M β) :
    M.bind (M.pure a) f = f a := rfl

theorem M.bind_throw_left {α β : Type} (msg : String) (f : α → M β) :
    M.bind (M.throw msg) f = M.throw msg := rfl

theorem M.bind_eq_pure {α β : Type} {x : M α} {f : α → M β} {b : β} :
    M.bind x f = M.pure b ↔ ∃ a, x = M.pure a ∧ f a = M.pure b := by
  cases x with
  | none => simp [M.bind, M.pure]
  | some e =>
    cases e with
    | error msg => simp [M.bind, M.pure]
    | ok a => simp [M.bind, M.pure]

theorem M.bind_ne_none {α β : Type} {x : M α} {f : α → M β}
    (hx : x ≠ none) (hf : ∀ a, f a ≠ none) : M.bind x f ≠ none := by
  cases x with
  | none => exact absurd rfl hx
  | some e =>
    cases e with
    | error msg => simp [M.bind]
    | ok a => simpa [M.bind] using hf a

theorem mmap_nil {α β : Type} (f : α → M β) : mmap f [] = M.pure [] := rfl

theorem mmap_eq_pure_mem {α β : Type} {f : α → M β} :
    ∀ {xs : List α} {ys : List β}, mmap f xs = M.pure ys →
      ∀ y ∈ ys, ∃ x ∈ xs, f x = M.pure y := by
  intro xs
  induction xs with
  | nil =>
    intro ys h y hy
    simp only [mmap] at h
    rw [M.pure_inj h.symm] at hy
    simp at hy
  | cons x xs ih =>
    intro ys h y hy
    simp only [mmap] at h
    obtain ⟨a, ha, h2⟩ := M.bind_eq_pure.mp h
    obtain ⟨as, has, h3⟩ := M.bind_eq_pure.mp h2
    have hys : ys = a :: as := (M.pure_inj h3).symm
    subst hys
    rcases List.mem_cons.mp hy with hy | hy
    · exact ⟨x, by simp, hy ▸ ha⟩
    · obtain ⟨x', hx', hfx'⟩ := ih has y hy
      exact ⟨x', by simp [hx'], hfx'⟩

theorem mmap_length {α β : Type} {f : α → M β} :
    ∀ {xs : List α} {ys : List β}, mmap f xs = M.pure ys →
      ys.length = xs.length := by
  intro xs
  induction xs with
  | nil =>
    intro ys h
    rw [M.pure_inj h.symm]
    rfl
  | cons x xs ih =>
    intro ys h
    simp only [mmap] at h
    obtain ⟨a, _, h2⟩ := M.bind_eq_pure.mp h
    obtain ⟨as, has, h3⟩ := M.bind_eq_pure.mp h2
    rw [← M.pure_inj h3]
    simp [ih has]

theorem mmap_ne_none {α β : Type} {f : α → M β} :
    ∀ {xs : List α}, (∀ x ∈ xs, f x ≠ none) → mmap f xs ≠ none := by
  intro xs
  induction xs with
  | nil => intro _; simp [mmap, M.pure]
  | cons x xs ih =>
    intro h
    simp only [mmap]
    refine M.bind_ne_none (h x (by simp)) fun a => ?_
    refine M.bind_ne_none (ih fun x' hx' => h x' (by simp [hx'])) fun as => ?_
    simp [M.pure]

theorem strip_sourceM_ne_none (dep : String) : strip_sourceM dep ≠ none := by
  unfold strip_sourceM
  cases strip_source dep <;> simp [M.throw, M.pure]

/-! Step lemmas unfolding one level of the recursion in `diff`. -/

theorem diff_zero (modified : List String) (fR sR : List Node) (id : String)
    (trail : List String) : diff modified fR sR 0 id trail = none := rfl

theorem diff_stop {modified : List String} {fR sR : List Node} {id key : String}
    (fuel : Nat) (trail : List String)
    (hkey : strip_source id = some key)
    (h : findNode sR id = none ∨ modified.contains key = true) :
    diff modified fR sR (fuel + 1) id trail = M.pure [trail ++ [key]] := by
  rcases h with h | h
  · simp only [diff, hkey, h]
  · cases h2 : findNode sR id with
    | none => simp only [diff, hkey, h2]
    | some node2 => simp only [diff, hkey, h2, h, if_true]

theorem diff_panic_missing_first {modified : List String} {fR sR : List Node}
    {id key : String} {node2 : Node} (fuel : Nat) (trail : List String)
    (hkey : strip_source id = some key)
    (h2 : findNode sR id = some node2)
    (hmod : modified.contains key = false)
    (h1 : findNode fR id = none) :
    diff modified fR sR (fuel + 1) id trail =
      M.throw ("no entry found for key " ++ id) := by
  simp only [diff, hkey, h2, hmod, h1, Bool.false_eq_true, if_false]

theorem diff_go {modified : List String} {fR sR : List Node} {id key : String}
    {node1 node2 : Node} (fuel : Nat) (trail : List String)
    (hkey : strip_source id = some key)
    (h2 : findNode sR id = some node2)
    (hmod : modified.contains key = false)
    (h1 : findNode fR id = some node1) :
    diff modified fR sR (fuel + 1) id trail =
      M.bind (mmap strip_sourceM (asym_deps node1 node2)) fun strips =>
        if strips.isEmpty then
          M.bind
            (mmap (fun dep => diff modified fR sR fuel dep (trail ++ [key]))
              node1.dependencies)
            fun results => M.pure results.flatten
        else
          M.pure (strips.map (fun s => (trail ++ [key]) ++ [s])) := by
  conv_lhs => simp only [diff, hkey, h2, hmod, h1, Bool.false_eq_true, if_false]

/-! Facts about `findNode`, `asym_deps` and the root-id set. -/

theorem findNode_mem {R : List Node} {id : String} {n : Node}
    (h : findNode R id = some n) : n ∈ R :=
  List.mem_of_find?_eq_some h

theorem findNode_id {R : List Node} {id : String} {n : Node}
    (h : findNode R id = some n) : n.id = id := by
  have := List.find?_some h
  simpa using this

theorem filter_not_contains_self (l : List String) :
    l.filter (fun d => !(l.contains d)) = [] := by
  rw [List.filter_eq_nil_iff]
  intro a ha
  simpa using ha

theorem asym_deps_self (n : Node) : asym_deps n n = [] := by
  unfold asym_deps
  rw [filter_not_contains_self]
  rfl

theorem pair_contains_iff (l : List (String × String)) (a : String × String) :
    l.contains a = true ↔ a ∈ l :=
  List.elem_iff

theorem mem_root_ids {first : Metadata} {id : String} :
    id ∈ root_ids first ↔
      ∃ p ∈ first.packages, p.id = id ∧
        ∃ wm ∈ first.workspace_members,
          p.name = wm.name ∧ p.version = wm.version := by
  unfold root_ids roots_of
  rw [List.mem_dedup]
  simp only [List.mem_map, List.mem_filter]
  constructor
  · rintro ⟨p, ⟨hp, hc⟩, hid⟩
    obtain ⟨pr, hpr, hpair⟩ := List.mem_map.mp ((pair_contains_iff _ _).mp hc)
    have h1 : pr.name = p.name := congrArg Prod.fst hpair
    have h2 : pr.version = p.version := congrArg Prod.snd hpair
    exact ⟨p, hp, hid, pr, hpr, h1.symm, h2.symm⟩
  · rintro ⟨p, hp, hid, wm, hwm, hn, hv⟩
    refine ⟨p, ⟨hp, (pair_contains_iff _ _).mpr ?_⟩, hid⟩
    exact List.mem_map.mpr ⟨wm, hwm, by simp [hn, hv]⟩

/-! The traversal of identical snapshots emits nothing. -/

theorem diff_self_eq_nil {R : List Node}
    (hclosed : ∀ n ∈ R, ∀ d ∈ n.dependencies, (findNode R d).isSome = true) :
    ∀ (fuel : Nat) (id : String) (trail : List String) (l : List (List String)),
      (findNode R id).isSome = true →
      diff [] R R fuel id trail = M.pure l → l = [] := by
  intro fuel
  induction fuel with
  | zero =>
    intro id trail l _ h
    rw [diff_zero] at h
    exact absurd h.symm (M.pure_ne_none l)
  | succ fuel ih =>
    intro id trail l hid h
    obtain ⟨n, hn⟩ := Option.isSome_iff_exists.mp hid
    cases hkey : strip_source id with
    | none =>
      simp only [diff, hkey] at h
      exact absurd h M.throw_ne_pure
    | some key =>
      rw [diff_go fuel trail hkey hn
          (show ([] : List String).contains key = false from rfl) hn,
        asym_deps_self, mmap_nil, M.bind_pure_left] at h
      simp only [List.isEmpty_nil, if_true] at h
      obtain ⟨results, hres, hpure⟩ := M.bind_eq_pure.mp h
      have hflat : results.flatten = l := M.pure_inj hpure
      have hall : ∀ y ∈ results, y = [] := by
        intro y hy
        obtain ⟨d, hd, hdiff⟩ := mmap_eq_pure_mem hres y hy
        exact ih d (trail ++ [key]) y (hclosed n (findNode_mem hn) d hd) hdiff
      rw [← hflat]
      exact List.flatten_eq_nil_iff.mpr hall

/-! Shape of every trail emitted by `diff`: the accumulated prefix, then
the stripped id of the visited node, then a chain of old-snapshot edges
whose final element may be the divergence point itself. -/

theorem diff_shape {modified : List String} {fR sR : List Node} :
    ∀ (fuel : Nat) (id : String) (trail : List String)
      (ls : List (List String)),
      diff modified fR sR fuel id trail = M.pure ls →
      ∀ t ∈ ls, ∃ key rest, strip_source id = some key ∧
        t = trail ++ key :: rest ∧ trailChain fR id rest := by
  intro fuel
  induction fuel with
  | zero =>
    intro id trail ls h
    rw [diff_zero] at h
    exact absurd h.symm (M.pure_ne_none ls)
  | succ fuel ih =>
    intro id trail ls h t ht
    cases hkey : strip_source id with
    | none =>
      simp only [diff, hkey] at h
      exact absurd h M.throw_ne_pure
    | some key =>
      cases h2 : findNode sR id with
      | none =>
        rw [diff_stop fuel trail hkey (Or.inl h2)] at h
        have hls : ls = [trail ++ [key]] := (M.pure_inj h).symm
        subst hls
        rw [List.mem_singleton] at ht
        exact ⟨key, [], rfl, ht, trailChain.nil id⟩
      | some node2 =>
        cases hmod : modified.contains key with
        | true =>
          rw [diff_stop fuel trail hkey (Or.inr hmod)] at h
          have hls : ls = [trail ++ [key]] := (M.pure_inj h).symm
          subst hls
          rw [List.mem_singleton] at ht
          exact ⟨key, [], rfl, ht, trailChain.nil id⟩
        | false =>
          cases h1 : findNode fR id with
          | none =>
            rw [diff_panic_missing_first fuel trail hkey h2 hmod h1] at h
            exact absurd h M.throw_ne_pure
          | some node1 =>
            rw [diff_go fuel trail hkey h2 hmod h1] at h
            obtain ⟨strips, hstrips, h⟩ := M.bind_eq_pure.mp h
            cases hemp : strips.isEmpty with
            | false =>
              simp only [hemp, Bool.false_eq_true, if_false] at h
              have hls : ls = strips.map (fun s => (trail ++ [key]) ++ [s]) :=
                (M.pure_inj h).symm
              subst hls
              obtain ⟨s, _, hs⟩ := List.mem_map.mp ht
              exact ⟨key, [s], rfl, by simp [← hs], trailChain.diverge id s⟩
            | true =>
              simp only [hemp, if_true] at h
              obtain ⟨results, hres, hpure⟩ := M.bind_eq_pure.mp h
              have hls : ls = results.flatten := (M.pure_inj hpure).symm
              subst hls
              obtain ⟨r, hr, htr⟩ := List.mem_flatten.mp ht
              obtain ⟨d, hd, hdiff⟩ := mmap_eq_pure_mem hres r hr
              obtain ⟨key', rest', hk', ht', hchain⟩ :=
                ih d (trail ++ [key]) r hdiff t htr
              refine ⟨key, key' :: rest', rfl, by simp [ht'], ?_⟩
              exact trailChain.step id node1 d key' rest' h1 hd hk' hchain

/-! Fuel sufficiency: any ranking function that strictly decreases along
old-snapshot dependency edges bounds the recursion depth of `diff`. -/

theorem diff_ne_none_of_rank {modified : List String} {fR sR : List Node}
    {rank : String → Nat}
    (hdag : ∀ n ∈ fR, ∀ d ∈ n.dependencies, rank d < rank n.id) :
    ∀ (fuel : Nat) (id : String) (trail : List String), rank id < fuel →
      diff modified fR sR fuel id trail ≠ none := by
  intro fuel
  induction fuel with
  | zero =>
    intro id trail h
    exact absurd h (Nat.not_lt_zero _)
  | succ fuel ih =>
    intro id trail hlt
    cases hkey : strip_source id with
    | none =>
      simp only [diff, hkey]
      simp [M.throw]
    | some key =>
      cases h2 : findNode sR id with
      | none =>
        rw [diff_stop fuel trail hkey (Or.inl h2)]
        exact M.pure_ne_none _
      | some node2 =>
        cases hmod : modified.contains key with
        | true =>
          rw [diff_stop fuel trail hkey (Or.inr hmod)]
          exact M.pure_ne_none _
        | false =>
          cases h1 : findNode fR id with
          | none =>
            rw [diff_panic_missing_first fuel trail hkey h2 hmod h1]
            simp [M.throw]
          | some node1 =>
            rw [diff_go fuel trail hkey h2 hmod h1]
            refine M.bind_ne_none
              (mmap_ne_none fun d _ => strip_sourceM_ne_none d) fun strips => ?_
            cases hemp : strips.isEmpty with
            | false =>
              simp only [hemp, Bool.false_eq_true, if_false]
              exact M.pure_ne_none _
            | true =>
              simp only [hemp, if_true]
              refine M.bind_ne_none (mmap_ne_none fun d hd => ?_)
                fun results => M.pure_ne_none _
              have hrk : rank d < rank id := by
                have := hdag node1 (findNode_mem h1) d hd
                rwa [findNode_id h1] at this
              exact ih d (trail ++ [key])
                (Nat.lt_of_lt_of_le hrk (Nat.lt_succ_iff.mp hlt))

/-! Inversion of a successful `diff_resolve` run into its stages. -/

theorem unwrap_resolve_eq_pure {m : Metadata} {r : List Node} :
    unwrap_resolve m = M.pure r ↔ m.resolve = some r := by
  unfold unwrap_resolve
  cases hm : m.resolve with
  | none => simp [M.throw, M.pure]
  | some r' => simp [M.pure]

theorem diff_resolve_inv {first second : Metadata} {modified : List String}
    {fuel : Nat} {trails : List (List String)} {paths : List String}
    (h : diff_resolve first second modified fuel = M.pure (trails, paths)) :
    ∃ mids fR sR results,
      mmap (member_lookup first) modified = M.pure mids ∧
      first.resolve = some fR ∧ second.resolve = some sR ∧
      mmap (fun id => diff mids fR sR fuel id []) (root_ids first) =
        M.pure results ∧
      results.flatten = trails ∧
      resolve_paths first.workspace_members trails [] = M.pure paths := by
  unfold diff_resolve at h
  obtain ⟨mids, hm, h⟩ := M.bind_eq_pure.mp h
  obtain ⟨fR, hfR, h⟩ := M.bind_eq_pure.mp h
  obtain ⟨sR, hsR, h⟩ := M.bind_eq_pure.mp h
  obtain ⟨results, hres, h⟩ := M.bind_eq_pure.mp h
  obtain ⟨changed, hchanged, h⟩ := M.bind_eq_pure.mp h
  have hpair := M.pure_inj h
  have htr : results.flatten = trails := congrArg Prod.fst hpair
  have hpa : changed = paths := congrArg Prod.snd hpair
  exact ⟨mids, fR, sR, results, hm, unwrap_resolve_eq_pure.mp hfR,
    unwrap_resolve_eq_pure.mp hsR, hres, htr, by rw [htr] at hchanged; rw [← hpa]; exact hchanged⟩

/-- When every element maps to a normal completion, the effectful loop is
a plain `List.map`. -/
theorem mmap_pure_of_forall {α β : Type} {f : α → M β} {g : α → β} :
    ∀ {xs : List α}, (∀ x ∈ xs, f x = M.pure (g x)) →
      mmap f xs = M.pure (xs.map g) := by
  intro xs
  induction xs with
  | nil => intro _; rfl
  | cons x xs ih =>
    intro h
    simp only [mmap, h x (by simp), M.bind_pure_left,
      ih fun x' hx' => h x' (by simp [hx'])]
    rfl

/-! Error propagation through the modified-member id construction. -/

theorem member_lookup_mmap_error {first : Metadata} :
    ∀ {modified : List String} {n : String}, n ∈ modified →
      (∀ m ∈ first.workspace_members, m.name ≠ n) →
      ∃ n', n' ∈ modified ∧ (∀ m ∈ first.workspace_members, m.name ≠ n') ∧
        mmap (member_lookup first) modified =
          M.throw ("Could not find `" ++ n' ++ "` in workspace members.") := by
  intro modified
  induction modified with
  | nil => intro n hn; simp at hn
  | cons x xs ih =>
    intro n hn hmiss
    cases hfind : first.workspace_members.find? (fun m => m.name == x) with
    | none =>
      refine ⟨x, by simp, ?_, ?_⟩
      · intro m hm
        have := List.find?_eq_none.mp hfind m hm
        simpa using this
      · simp only [mmap, member_lookup, hfind]
        rfl
    | some member =>
      have hmem := List.mem_of_find?_eq_some hfind
      have hname : member.name = x := by simpa using List.find?_some hfind
      have hxn : x ≠ n := by
        intro hxe
        exact hmiss member hmem (hxe ▸ hname)
      have hn' : n ∈ xs := by
        rcases List.mem_cons.mp hn with h | h
        · exact absurd h.symm hxn
        · exact h
      obtain ⟨n', hn'm, hn'miss, heq⟩ := ih hn' hmiss
      refine ⟨n', by simp [hn'm], hn'miss, ?_⟩
      simp only [mmap, member_lookup, hfind, M.bind_pure_left, heq]
      rfl

/-! Characterization of the member scan of the path-resolution loop. -/

theorem find_root_path_eq (members : List WorkspaceMember) (name : String) :
    find_root_path members name =
      match members.find? (fun m => m.name == name) with
      | none => M.throw ("Did not find root `" ++ name ++ "` in workspace.")
      | some m =>
        if starts_with_chars m.url.data ("path+file:/".data) then
          M.pure (strip_scheme m.url)
        else
          M.throw "assertion failed: member.url.starts_with of path+file:/" := by
  induction members with
  | nil => rfl
  | cons member rest ih =>
    cases hname : member.name == name with
    | false =>
      rw [List.find?_cons_of_neg _ (by simp [hname])]
      simp only [find_root_path, hname, Bool.false_eq_true, if_false]
      exact ih
    | true =>
      rw [List.find?_cons_of_pos _ (by simp [hname])]
      simp only [find_root_path, hname, if_true]

theorem mem_insert_path {acc : List String} {q p : String} :
    p ∈ insert_path acc q ↔ p ∈ acc ∨ p = q := by
  unfold insert_path
  cases hc : acc.contains q with
  | true =>
    simp only [if_true]
    constructor
    · exact Or.inl
    · rintro (h | h)
      · exact h
      · exact h ▸ List.elem_iff.mp hc
  | false =>
    simp only [Bool.false_eq_true, if_false, List.mem_append,
      List.mem_singleton]

/-! Success characterization of the path-resolution loop: under unique
member names, the accumulated set is exactly the set of stripped urls of
the members named by some trail's first element. -/

theorem resolve_paths_mem {members : List WorkspaceMember}
    (hnodup : (members.map (fun m => m.name)).Nodup) :
    ∀ (trails : List (List String)) (acc paths : List String),
      resolve_paths members trails acc = M.pure paths →
      ∀ p, p ∈ paths ↔ p ∈ acc ∨ ∃ m ∈ members,
        p = strip_scheme m.url ∧ ∃ t ∈ trails, firstNameOf t = some m.name := by
  intro trails
  induction trails with
  | nil =>
    intro acc paths h p
    have hap : acc = paths := M.pure_inj h
    subst hap
    simp
  | cons trail rest ih =>
    intro acc paths h p
    cases trail with
    | nil =>
      simp only [resolve_paths] at h
      exact absurd h M.throw_ne_pure
    | cons t0 tl =>
      simp only [resolve_paths] at h
      obtain ⟨p0, hp0, hrec⟩ := M.bind_eq_pure.mp h
      rw [find_root_path_eq] at hp0
      cases hfind : members.find? (fun m => m.name == first_word t0) with
      | none =>
        rw [hfind] at hp0
        exact absurd hp0 M.throw_ne_pure
      | some m =>
        rw [hfind] at hp0
        cases hpre : starts_with_chars m.url.data ("path+file:/".data) with
        | false =>
          simp only [hpre, Bool.false_eq_true, if_false] at hp0
          exact absurd hp0 M.throw_ne_pure
        | true =>
          simp only [hpre, if_true] at hp0
          have hp0' : strip_scheme m.url = p0 := M.pure_inj hp0
          have hmem := List.mem_of_find?_eq_some hfind
          have hmname : m.name = first_word t0 := by
            simpa using List.find?_some hfind
          rw [ih (insert_path acc p0) paths hrec p]
          constructor
          · rintro (hin | ⟨m', hm', hpm', t, ht, hft⟩)
            · rcases mem_insert_path.mp hin with hin | hin
              · exact Or.inl hin
              · refine Or.inr ⟨m, hmem, by rw [hin, ← hp0'], t0 :: tl, by simp, ?_⟩
                simp [firstNameOf, hmname]
            · exact Or.inr ⟨m', hm', hpm', t, by simp [ht], hft⟩
          · rintro (hin | ⟨m', hm', hpm', t, ht, hft⟩)
            · exact Or.inl (mem_insert_path.mpr (Or.inl hin))
            · rcases List.mem_cons.mp ht with ht | ht
              · have hm'name : m'.name = m.name := by
                  subst ht
                  simp only [firstNameOf, Option.some_inj] at hft
                  rw [← hft, hmname]
                have hmm : m' = m :=
                  List.inj_on_of_nodup_map hnodup hm' hmem hm'name
                exact Or.inl (mem_insert_path.mpr
                  (Or.inr (by rw [hpm', hmm, hp0'])))
              · exact Or.inr ⟨m', hm', hpm', t, ht, hft⟩

/-! Failure of the path-resolution loop when some trail names a root that
is not a workspace member: the loop panics rather than dropping the
path. -/

theorem resolve_paths_missing {members : List WorkspaceMember} :
    ∀ (trails : List (List String)) (acc : List String),
      (∀ t ∈ trails, t ≠ []) →
      (∀ t ∈ trails, ∀ m ∈ members, firstNameOf t = some m.name →
        starts_with_chars m.url.data ("path+file:/".data) = true) →
      (∃ t ∈ trails, ∃ nm, firstNameOf t = some nm ∧
        ∀ m ∈ members, m.name ≠ nm) →
      ∃ nm, (∃ t ∈ trails, firstNameOf t = some nm ∧
          ∀ m ∈ members, m.name ≠ nm) ∧
        resolve_paths members trails acc =
          M.throw ("Did not find root `" ++ nm ++ "` in workspace.") := by
  intro trails
  induction trails with
  | nil =>
    intro acc _ _ hex
    obtain ⟨t, ht, _⟩ := hex
    simp at ht
  | cons trail rest ih =>
    intro acc hne hpre hex
    cases trail with
    | nil =>
      exact absurd rfl (hne [] (by simp))
    | cons t0 tl =>
      cases hfind : members.find?
          (fun m => m.name == first_word t0) with
      | none =>
        refine ⟨first_word t0, ⟨t0 :: tl, by simp, rfl, ?_⟩, ?_⟩
        · intro m hm
          have := List.find?_eq_none.mp hfind m hm
          simpa using this
        · simp only [resolve_paths]
          rw [find_root_path_eq, hfind]
          rfl
      | some m =>
        have hmem := List.mem_of_find?_eq_some hfind
        have hmname : m.name = first_word t0 := by
          simpa using List.find?_some hfind
        have hpre' : starts_with_chars m.url.data ("path+file:/".data) = true :=
          hpre (t0 :: tl) (by simp) m hmem (by simp [firstNameOf, hmname])
        obtain ⟨t, ht, nm, hft, hnone⟩ := hex
        have htrest : t ∈ rest := by
          rcases List.mem_cons.mp ht with ht | ht
          · exfalso
            subst ht
            simp only [firstNameOf, Option.some_inj] at hft
            exact hnone m hmem (by rw [hmname, hft])
          · exact ht
        obtain ⟨nm', ⟨t', ht', hft', hnone'⟩, heq⟩ :=
          ih (insert_path acc (strip_scheme m.url))
            (fun t' ht' => hne t' (by simp [ht']))
            (fun t' ht' m' hm' => hpre t' (by simp [ht']) m' hm')
            ⟨t, htrest, nm, hft, hnone⟩
        refine ⟨nm', ⟨t', by simp [ht'], hft', hnone'⟩, ?_⟩
        simp only [resolve_paths]
        rw [find_root_path_eq, hfind]
        simp only [hpre', if_true, M.bind_pure_left]
        exact heq

theorem contains_eq_false_of_not_mem {l : List String} {a : String}
    (h : a ∉ l) : l.contains a = false := by
  cases hc : l.contains a with
  | false => rfl
  | true => exact absurd (List.elem_iff.mp hc) h

/-! The specification claims. -/

/-- C1: at a node present in both snapshots (and not forced), if the edge
sets differ then `diff` emits exactly one trail `trail ++ [key, strip dep]`
per asymmetric dependency (old-minus-new followed by new-minus-old) and
recurses into none of the node's dependencies; under duplicate-free
dependency lists each asymmetric edge occurs exactly once in the processed
list. -/
theorem c1_asym_edges (modified : List String) (fR sR : List Node)
    (fuel : Nat) (id key : String) (trail : List String)
    (node1 node2 : Node) (stripf : String → String)
    (hkey : strip_source id = some key)
    (h2 : findNode sR id = some node2)
    (hmod : modified.contains key = false)
    (h1 : findNode fR id = some node1)
    (hnd1 : node1.dependencies.Nodup)
    (hnd2 : node2.dependencies.Nodup)
    (hstrip : ∀ d ∈ asym_deps node1 node2, strip_source d = some (stripf d))
    (hne : asym_deps node1 node2 ≠ []) :
    diff modified fR sR (fuel + 1) id trail =
        M.pure ((asym_deps node1 node2).map
          (fun d => trail ++ [key, stripf d])) ∧
      ∀ d, ((d ∈ node1.dependencies ∧ d ∉ node2.dependencies) ∨
            (d ∈ node2.dependencies ∧ d ∉ node1.dependencies)) →
        (asym_deps node1 node2).count d = 1 := by
  constructor
  · rw [diff_go fuel trail hkey h2 hmod h1]
    rw [mmap_pure_of_forall (g := stripf) fun d hd => by
      simp only [strip_sourceM, hstrip d hd]]
    rw [M.bind_pure_left]
    have hemp : ((asym_deps node1 node2).map stripf).isEmpty = false := by
      cases hds : asym_deps node1 node2 with
      | nil => exact absurd hds hne
      | cons d0 ds => rfl
    simp only [hemp, Bool.false_eq_true, if_false, List.map_map]
    refine congrArg M.pure (List.map_congr_left fun d _ => ?_)
    simp
  · intro d hd
    unfold asym_deps
    rw [List.count_append]
    rcases hd with ⟨hin, hout⟩ | ⟨hin, hout⟩
    · have hc1 : (node1.dependencies.filter
          (fun d => !(node2.dependencies.contains d))).count d = 1 := by
        rw [@List.count_filter String _ _
          (fun x => !(node2.dependencies.contains x)) d node1.dependencies
          (by show (!(node2.dependencies.contains d)) = true
              rw [contains_eq_false_of_not_mem hout]; rfl)]
        exact List.count_eq_one_of_mem hnd1 hin
      have hc2 : (node2.dependencies.filter
          (fun d => !(node1.dependencies.contains d))).count d = 0 :=
        List.count_eq_zero.mpr fun hmem => hout (List.mem_of_mem_filter hmem)
      rw [hc1, hc2]
    · have hc1 : (node1.dependencies.filter
          (fun d => !(node2.dependencies.contains d))).count d = 0 :=
        List.count_eq_zero.mpr fun hmem => hout (List.mem_of_mem_filter hmem)
      have hc2 : (node2.dependencies.filter
          (fun d => !(node1.dependencies.contains d))).count d = 1 := by
        rw [@List.count_filter String _ _
          (fun x => !(node1.dependencies.contains x)) d node2.dependencies
          (by show (!(node1.dependencies.contains d)) = true
              rw [contains_eq_false_of_not_mem hout]; rfl)]
        exact List.count_eq_one_of_mem hnd2 hin
      rw [hc1, hc2]

/-- C2: a visited node whose stripped key is forced, or whose id has no
node in the new snapshot, makes `diff` emit the current trail as-is and
stop; concretely, removing node x from the new snapshot while root a still
has the edge a -> x yields exactly the trail `[a, x]` and no panic. -/
theorem c2_forced_stop :
    (∀ (modified : List String) (fR sR : List Node) (fuel : Nat)
        (id key : String) (trail : List String),
        strip_source id = some key →
        modified.contains key = true ∨ findNode sR id = none →
        diff modified fR sR (fuel + 1) id trail = M.pure [trail ++ [key]]) ∧
      diff_resolve exC2_old exC2_new [] 5 =
        M.pure ([["a 1.0.0", "x 1.0.0"]], ["//w/a"]) := by
  constructor
  · intro modified fR sR fuel id key trail hkey h
    exact diff_stop fuel trail hkey h.symm
  · rfl

/-- C3: the code does not verify that all declared workspace roots were
found (`TODO` at `graph.rs` line 31). With roots `a` and `ghost` declared
but no package for `ghost`, `diff_resolve` silently drops `ghost` and
completes successfully with the remaining root's trail, instead of
failing with a root-not-found error as specified. -/
theorem c3_missing_root_skipped :
    diff_resolve exC3_old exC3_new [] 5 =
      M.pure ([["a 1.0.0", "x 1.0.0"]], ["//w/a"]) := by
  rfl

/-- C4: on a successful run with duplicate-free member names, the returned
path set is exactly the stripped urls of the workspace members whose name
is the first word of some trail's first element; and when a trail's first
name has no matching member, the path-resolution loop panics (root path
not found) instead of dropping the path. -/
theorem c4_affected_paths :
    (∀ (first second : Metadata) (modified : List String) (fuel : Nat)
        (trails : List (List String)) (paths : List String),
        (first.workspace_members.map (fun m => m.name)).Nodup →
        diff_resolve first second modified fuel = M.pure (trails, paths) →
        ∀ p, p ∈ paths ↔ ∃ m ∈ first.workspace_members,
          p = strip_scheme m.url ∧ ∃ t ∈ trails, firstNameOf t = some m.name) ∧
      (∀ (members : List WorkspaceMember) (trails : List (List String)),
        (∀ t ∈ trails, t ≠ []) →
        (∀ t ∈ trails, ∀ m ∈ members, firstNameOf t = some m.name →
          starts_with_chars m.url.data ("path+file:/".data) = true) →
        (∃ t ∈ trails, ∃ nm, firstNameOf t = some nm ∧
          ∀ m ∈ members, m.name ≠ nm) →
        ∃ nm, (∃ t ∈ trails, firstNameOf t = some nm ∧
            ∀ m ∈ members, m.name ≠ nm) ∧
          resolve_paths members trails [] =
            M.throw ("Did not find root `" ++ nm ++ "` in workspace.")) := by
  constructor
  · intro first second modified fuel trails paths hnodup hrun p
    obtain ⟨mids, fR, sR, results, _, _, _, _, _, hpaths⟩ :=
      diff_resolve_inv hrun
    rw [resolve_paths_mem hnodup trails [] paths hpaths p]
    simp
  · intro members trails h1 h2 h3
    exact resolve_paths_missing trails [] h1 h2 h3

/-- C5: diffing a well-formed snapshot against itself with no forced
members yields no trails and no affected paths, whenever the traversal
completes. -/
theorem c5_identity (S : Metadata) (R : List Node) (fuel : Nat)
    (trails : List (List String)) (paths : List String)
    (hres : S.resolve = some R)
    (hpkgs : ∀ p ∈ S.packages, (findNode R p.id).isSome = true)
    (hclosed : ∀ n ∈ R, ∀ d ∈ n.dependencies, (findNode R d).isSome = true)
    (hrun : diff_resolve S S [] fuel = M.pure (trails, paths)) :
    trails = [] ∧ paths = [] := by
  obtain ⟨mids, fR, sR, results, hm, hfR, hsR, hresl, hflat, hpaths⟩ :=
    diff_resolve_inv hrun
  have hmids : mids = [] := (M.pure_inj hm).symm
  have hfRR : fR = R := by
    rw [hres] at hfR
    exact (Option.some_inj.mp hfR).symm
  have hsRR : sR = R := by
    rw [hres] at hsR
    exact (Option.some_inj.mp hsR).symm
  subst hmids hfRR hsRR
  have hall : ∀ y ∈ results, y = [] := by
    intro y hy
    obtain ⟨id, hid, hdiff⟩ := mmap_eq_pure_mem hresl y hy
    obtain ⟨p, hp, hpid, _⟩ := mem_root_ids.mp hid
    exact diff_self_eq_nil hclosed fuel id [] y
      (by rw [← hpid]; exact hpkgs p hp) hdiff
  have htr : trails = [] := by
    rw [← hflat]
    exact List.flatten_eq_nil_iff.mpr hall
  refine ⟨htr, ?_⟩
  rw [htr] at hpaths
  exact (M.pure_inj hpaths).symm

/-- C6: with old chain a -> b -> c(1.0.0) and new chain a -> b -> c(2.0.0)
(the edge at a unchanged, c's id differing by version), the diff traverses
through a and reports divergence below b, yielding trails `[a, b, c]` for
both c versions; and the old c id indeed has no node in the new
snapshot. -/
theorem c6_deep_divergence :
    diff_resolve exC6_old exC6_new [] 5 =
        M.pure ([["a 1.0.0", "b 1.0.0", "c 1.0.0"],
                 ["a 1.0.0", "b 1.0.0", "c 2.0.0"]], ["//w/a"]) ∧
      ∃ R, exC6_new.resolve = some R ∧ findNode R c1Id = none :=
  ⟨rfl, ⟨[⟨aId, [bId]⟩, ⟨bId, [c2Id]⟩, ⟨c2Id, []⟩], rfl, rfl⟩⟩

/-- C7: every trail of a successful run is non-empty, starts with the
stripped id of a package matching a declared workspace root of the old
snapshot, and continues along old-snapshot dependency edges, the final
element being the divergence point. -/
theorem c7_trail_invariants (first second : Metadata) (modified : List String)
    (fuel : Nat) (fR : List Node) (trails : List (List String))
    (paths : List String)
    (hres : first.resolve = some fR)
    (hrun : diff_resolve first second modified fuel = M.pure (trails, paths)) :
    ∀ t ∈ trails, t ≠ [] ∧
      ∃ p ∈ first.packages,
        (∃ wm ∈ first.workspace_members,
          p.name = wm.name ∧ p.version = wm.version) ∧
        strip_source p.id = some t.headI ∧ trailChain fR p.id t.tail := by
  intro t ht
  obtain ⟨mids, fR', sR, results, hm, hfR, hsR, hresl, hflat, _⟩ :=
    diff_resolve_inv hrun
  have hfRR : fR' = fR := by
    rw [hres] at hfR
    exact (Option.some_inj.mp hfR).symm
  subst hfRR
  rw [← hflat] at ht
  obtain ⟨r, hr, htr⟩ := List.mem_flatten.mp ht
  obtain ⟨id, hid, hdiff⟩ := mmap_eq_pure_mem hresl r hr
  obtain ⟨key, rest, hk, ht', hchain⟩ := diff_shape fuel id [] r hdiff t htr
  obtain ⟨p, hp, hpid, wm, hwm, hn, hv⟩ := mem_root_ids.mp hid
  have hteq : t = key :: rest := by simpa using ht'
  subst hteq
  refine ⟨by simp, p, hp, ⟨wm, hwm, hn, hv⟩, ?_, ?_⟩
  · rw [hpid]
    exact hk
  · rw [hpid]
    exact hchain

/-- C8: when the old snapshot's dependency relation is acyclic, witnessed
by a ranking that strictly decreases along dependency edges, the recursive
trace terminates from any starting node (and so from every root) once the
fuel exceeds the start node's rank: the run never exhausts its fuel. -/
theorem c8_termination_dag (modified : List String) (fR sR : List Node)
    (rank : String → Nat)
    (hdag : ∀ n ∈ fR, ∀ d ∈ n.dependencies, rank d < rank n.id)
    (fuel : Nat) (id : String) (trail : List String)
    (hfuel : rank id < fuel) :
    diff modified fR sR fuel id trail ≠ none :=
  diff_ne_none_of_rank hdag fuel id trail hfuel

/-- C9: a forced (modified-members) name matching no workspace member
makes the whole operation abort with an error naming a missing member,
before any traversal: no snapshot well-formedness or fuel is needed for
the error, and no result is produced. -/
theorem c9_unknown_modified_member (first second : Metadata)
    (modified : List String) (fuel : Nat) (n : String)
    (hn : n ∈ modified)
    (hmiss : ∀ m ∈ first.workspace_members, m.name ≠ n) :
    ∃ n', n' ∈ modified ∧ (∀ m ∈ first.workspace_members, m.name ≠ n') ∧
      diff_resolve first second modified fuel =
        M.throw ("Could not find `" ++ n' ++ "` in workspace members.") := by
  obtain ⟨n', hn', hmiss', heq⟩ := member_lookup_mmap_error hn hmiss
  refine ⟨n', hn', hmiss', ?_⟩
  unfold diff_resolve
  rw [heq, M.bind_throw_left]

/-- C10: the member scan of path resolution matches by name only (first
matching entry, version ignored); a matched member whose location lacks
the `path+file:/` prefix aborts the operation, and a matched member with
the prefix resolves to the location with exactly its first 11 characters
removed; no match at all panics with root-not-found. -/
theorem c10_path_resolution (members : List WorkspaceMember) (name : String) :
    (∀ m, members.find? (fun x => x.name == name) = some m →
      (starts_with_chars m.url.data ("path+file:/".data) = true →
        find_root_path members name = M.pure (strip_scheme m.url)) ∧
      (starts_with_chars m.url.data ("path+file:/".data) = false →
        find_root_path members name =
          M.throw "assertion failed: member.url.starts_with of path+file:/")) ∧
    (members.find? (fun x => x.name == name) = none →
      find_root_path members name =
        M.throw ("Did not find root `" ++ name ++ "` in workspace.")) := by
  constructor
  · intro m hfind
    constructor
    · intro hpre
      rw [find_root_path_eq, hfind]
      simp [hpre]
    · intro hpre
      rw [find_root_path_eq, hfind]
      simp [hpre]
  · intro hfind
    rw [find_root_path_eq, hfind]

/-! Witnesses: each hypothesis-bearing claim theorem applied at a concrete
input with every hypothesis discharged. -/

/-- Witness for C1 at node b of the exC6 snapshots: removed edge c(1.0.0)
and added edge c(2.0.0), one trail each, no recursion. -/
theorem c1_asym_edges_witness :
    diff [] [⟨aId, [bId]⟩, ⟨bId, [c1Id]⟩, ⟨c1Id, []⟩]
        [⟨aId, [bId]⟩, ⟨bId, [c2Id]⟩, ⟨c2Id, []⟩] 1 bId ["a 1.0.0"] =
      M.pure ((asym_deps ⟨bId, [c1Id]⟩ ⟨bId, [c2Id]⟩).map
        (fun d => ["a 1.0.0"] ++ ["b 1.0.0",
          if d == c1Id then "c 1.0.0" else "c 2.0.0"])) ∧
    (asym_deps ⟨bId, [c1Id]⟩ ⟨bId, [c2Id]⟩).count c1Id = 1 := by
  have h := c1_asym_edges [] [⟨aId, [bId]⟩, ⟨bId, [c1Id]⟩, ⟨c1Id, []⟩]
    [⟨aId, [bId]⟩, ⟨bId, [c2Id]⟩, ⟨c2Id, []⟩] 0 bId "b 1.0.0" ["a 1.0.0"]
    ⟨bId, [c1Id]⟩ ⟨bId, [c2Id]⟩
    (fun d => if d == c1Id then "c 1.0.0" else "c 2.0.0")
    rfl rfl rfl rfl (by decide) (by decide) (by decide) (by decide)
  exact ⟨h.1, h.2 c1Id (Or.inl ⟨by decide, by decide⟩)⟩

/-- Witness for C2: a forced node stops immediately, and the concrete
removed-node scenario runs as stated. -/
theorem c2_forced_stop_witness :
    diff ["x 1.0.0"] [] [] 1 xId [] = M.pure [["x 1.0.0"]] ∧
    diff_resolve exC2_old exC2_new [] 5 =
      M.pure ([["a 1.0.0", "x 1.0.0"]], ["//w/a"]) :=
  ⟨c2_forced_stop.1 ["x 1.0.0"] [] [] 0 xId "x 1.0.0" [] rfl (Or.inl rfl),
   c2_forced_stop.2⟩

/-- Witness for C4 at the exC6 run (success direction) and at a trail
whose root name matches no member (failure direction). -/
theorem c4_affected_paths_witness :
    ("//w/a" ∈ (["//w/a"] : List String) ↔
      ∃ m ∈ exC6_old.workspace_members, "//w/a" = strip_scheme m.url ∧
        ∃ t ∈ [["a 1.0.0", "b 1.0.0", "c 1.0.0"],
               ["a 1.0.0", "b 1.0.0", "c 2.0.0"]],
          firstNameOf t = some m.name) ∧
    (∃ nm, (∃ t ∈ [["g 1.0.0"]], firstNameOf t = some nm ∧
        ∀ m ∈ ([] : List WorkspaceMember), m.name ≠ nm) ∧
      resolve_paths [] [["g 1.0.0"]] [] =
        M.throw ("Did not find root `" ++ nm ++ "` in workspace.")) :=
  ⟨c4_affected_paths.1 exC6_old exC6_new [] 5
      [["a 1.0.0", "b 1.0.0", "c 1.0.0"], ["a 1.0.0", "b 1.0.0", "c 2.0.0"]]
      ["//w/a"] (by decide) rfl "//w/a",
   c4_affected_paths.2 [] [["g 1.0.0"]] (by simp) (by simp)
     ⟨["g 1.0.0"], by simp, "g", rfl, by simp⟩⟩

/-- Witness for C5 on the concrete snapshot exC2_old. -/
theorem c5_identity_witness :
    diff_resolve exC2_old exC2_old [] 5 = M.pure ([], []) ∧
    ([] : List (List String)) = [] ∧ ([] : List String) = [] :=
  ⟨rfl, c5_identity exC2_old [⟨aId, [xId]⟩, ⟨xId, []⟩] 5 [] [] rfl
    (by decide) (by decide) rfl⟩

/-- Witness for C7 at the first trail of the exC6 run. -/
theorem c7_trail_invariants_witness :
    ["a 1.0.0", "b 1.0.0", "c 1.0.0"] ≠ [] ∧
    ∃ p ∈ exC6_old.packages,
      (∃ wm ∈ exC6_old.workspace_members,
        p.name = wm.name ∧ p.version = wm.version) ∧
      strip_source p.id = some (["a 1.0.0", "b 1.0.0", "c 1.0.0"].headI) ∧
      trailChain [⟨aId, [bId]⟩, ⟨bId, [c1Id]⟩, ⟨c1Id, []⟩] p.id
        (["a 1.0.0", "b 1.0.0", "c 1.0.0"].tail) :=
  c7_trail_invariants exC6_old exC6_new [] 5
    [⟨aId, [bId]⟩, ⟨bId, [c1Id]⟩, ⟨c1Id, []⟩]
    [["a 1.0.0", "b 1.0.0", "c 1.0.0"], ["a 1.0.0", "b 1.0.0", "c 2.0.0"]]
    ["//w/a"] rfl rfl ["a 1.0.0", "b 1.0.0", "c 1.0.0"] (by simp)

/-- Witness for C8 on the exC6 old snapshot with an explicit topological
ranking. -/
theorem c8_termination_dag_witness :
    diff [] [⟨aId, [bId]⟩, ⟨bId, [c1Id]⟩, ⟨c1Id, []⟩]
        [⟨aId, [bId]⟩, ⟨bId, [c2Id]⟩, ⟨c2Id, []⟩] 3 aId [] ≠ none :=
  c8_termination_dag [] [⟨aId, [bId]⟩, ⟨bId, [c1Id]⟩, ⟨c1Id, []⟩]
    [⟨aId, [bId]⟩, ⟨bId, [c2Id]⟩, ⟨c2Id, []⟩]
    (fun s => if s == aId then 2 else if s == bId then 1 else 0)
    (by decide) 3 aId [] (by decide)

/-- Witness for C9: forcing the unknown member name zed aborts the run
with the corresponding error. -/
theorem c9_unknown_modified_member_witness :
    diff_resolve exC6_old exC6_new ["zed"] 5 =
      M.throw "Could not find `zed` in workspace members." := by
  obtain ⟨n', hn', _, heq⟩ :=
    c9_unknown_modified_member exC6_old exC6_new ["zed"] 5 "zed"
      (by simp) (by decide)
  have hz : n' = "zed" := List.mem_singleton.mp hn'
  subst hz
  exact heq

/-- Witness for C10: two members sharing the name a resolve to the first
entry's stripped path, and an empty member list panics with
root-not-found. -/
theorem c10_path_resolution_witness :
    find_root_path [⟨"a", "1.0.0", "path+file:///w/a1"⟩,
        ⟨"a", "2.0.0", "path+file:///w/a2"⟩] "a" =
      M.pure (strip_scheme "path+file:///w/a1") ∧
    find_root_path [] "zed" =
      M.throw ("Did not find root `" ++ "zed" ++ "` in workspace.") :=
  ⟨((c10_path_resolution [⟨"a", "1.0.0", "path+file:///w/a1"⟩,
        ⟨"a", "2.0.0", "path+file:///w/a2"⟩] "a").1
      ⟨"a", "1.0.0", "path+file:///w/a1"⟩ rfl).1 rfl,
   (c10_path_resolution [] "zed").2 rfl⟩

end Subup
